import Mathlib

/-!
Verification of the root-finding library `utils.py` (functions `bisect`,
`newton_raphson`, `rootwalk`).

Real numbers are embedded as `ℚ` (exact arithmetic).  Python control flow is
embedded as fuel recursion on the iteration count; each Python exception that
can escape a function is a constructor of the function's outcome type:
- `AsymtoteException` raised by `bisect` is `BisectOutcome.asymtote`;
- the `UnboundLocalError` that `bisect` raises when `max_iter = 0` (both
  post-loop branches read the loop variable `m`, which was never assigned)
  is `BisectOutcome.unbound`;
- the `ZeroDivisionError` of `newton_raphson` when `df` is zero at the
  current iterate is `NewtonOutcome.zeroDivisionError`;
- `rootwalk` propagates uncaught faults as `RootwalkOutcome.fault`
  (`ZeroDivisionError` from `dx = (b-a)/N` when `N = 0`, `IndexError` from
  `r[i] =` with `i ≥ len(r)`, and any `UnboundLocalError` of an inner
  `bisect` call), while a caught `AsymtoteException` is skipped.
Non-fatal warnings are encoded in the outcome tag: `okWarn` is a value
returned together with a `ConvergenceWarning`, and `RootwalkOutcome.incomplete`
is a list returned together with an `IncompleteSolution` warning.
The `NaN` sentinel of `rootwalk`'s result list is embedded as `none`.
-/

namespace Utils

/-- Result of `bisect`: a root within margin (`ok`), a best-effort midpoint
returned with a `ConvergenceWarning` (`okWarn`), a raised `AsymtoteException`
carrying the data interpolated into its message (`asymtote`), or the
`UnboundLocalError` hit when the loop body never ran (`unbound`). -/
inductive BisectOutcome where
  | ok (m : ℚ)
  | okWarn (m : ℚ)
  | asymtote (m fa fb a b : ℚ)
  | unbound
deriving DecidableEq

/-- Code after the `for` loop of `bisect` (lines 76-82 of `utils.py`):
the asymptote test `-f(a)*f(b) > 1/eps` decides between raising
`AsymtoteException` and warning-and-returning `m`; both branches read the
loop variable `m`, so both fault when it was never assigned (`m? = none`). -/
def bisectPost (f : ℚ → ℚ) (eps a b : ℚ) (m? : Option ℚ) : BisectOutcome :=
  if -f a * f b > 1/eps then
    match m? with
    | none => .unbound
    | some m => .asymtote m (f a) (f b) a b
  else
    match m? with
    | none => .unbound
    | some m => .okWarn m

/-- The `for _ in range(max_iter)` loop of `bisect` (lines 60-74 of
`utils.py`); `m?` holds the value of the Python variable `m` from the
previous iteration, if any. -/
def bisectLoop (f : ℚ → ℚ) (eps : ℚ) : ℕ → ℚ → ℚ → Option ℚ → BisectOutcome
  | 0, a, b, m? => bisectPost f eps a b m?
  | k + 1, a, b, _ =>
    if |f ((a + b) / 2)| < eps then .ok ((a + b) / 2)
    else
      if f a * f ((a + b) / 2) < 0 then
        bisectLoop f eps k a ((a + b) / 2) (some ((a + b) / 2))
      else
        bisectLoop f eps k ((a + b) / 2) b (some ((a + b) / 2))

/-- Embedding of `bisect(f, a, b, eps, max_iter)` of `utils.py`. -/
def bisect (f : ℚ → ℚ) (a b eps : ℚ) (max_iter : ℕ) : BisectOutcome :=
  bisectLoop f eps max_iter a b none

/-- Midpoint of an interval given as a pair. -/
def mid (p : ℚ × ℚ) : ℚ := (p.1 + p.2) / 2

/-- One interval-narrowing step of `bisect` (lines 70-74 of `utils.py`):
keep `[a, m]` when `f(a)*f(m) < 0`, otherwise keep `[m, b]`. -/
def bstep (f : ℚ → ℚ) (p : ℚ × ℚ) : ℚ × ℚ :=
  if f p.1 * f (mid p) < 0 then (p.1, mid p) else (mid p, p.2)

/-- Result of `newton_raphson`: a root within margin (`ok`), the final
iterate returned with a `ConvergenceWarning` (`okWarn`), or the
`ZeroDivisionError` raised by `f(x0)/df(x0)` when `df(x0) = 0`. -/
inductive NewtonOutcome where
  | ok (x : ℚ)
  | okWarn (x : ℚ)
  | zeroDivisionError
deriving DecidableEq

/-- The `for _ in range(max_iter)` loop of `newton_raphson` (lines 100-110
of `utils.py`): update `x0 ← x0 - f(x0)/df(x0)` first, then test
`|f(x0)| < eps`; after the loop, warn and return the final iterate. -/
def newtonLoop (f df : ℚ → ℚ) (eps : ℚ) : ℕ → ℚ → NewtonOutcome
  | 0, x0 => .okWarn x0
  | k + 1, x0 =>
    if df x0 = 0 then .zeroDivisionError
    else
      if |f (x0 - f x0 / df x0)| < eps then .ok (x0 - f x0 / df x0)
      else newtonLoop f df eps k (x0 - f x0 / df x0)

/-- Embedding of `newton_raphson(x0, f, df, eps, max_iter)` of `utils.py`. -/
def newton_raphson (x0 : ℚ) (f df : ℚ → ℚ) (eps : ℚ) (max_iter : ℕ) : NewtonOutcome :=
  newtonLoop f df eps max_iter x0

/-- One Newton update `x ← x - f(x)/df(x)` (line 102 of `utils.py`). -/
def nstep (f df : ℚ → ℚ) (x : ℚ) : ℚ := x - f x / df x

/-- A fault that escapes `rootwalk` to its caller. -/
inductive Fault where
  | asymtoteExc (m fa fb a b : ℚ)
  | unboundLocal
  | indexError
  | zeroDivisionError
deriving DecidableEq

/-- Result of `rootwalk`: the list returned by the early `if i == n` exit
(`done`), the list returned after the full scan together with an
`IncompleteSolution` warning (`incomplete`), or an uncaught fault. -/
inductive RootwalkOutcome where
  | done (r : List (Option ℚ))
  | incomplete (r : List (Option ℚ))
  | fault (e : Fault)
deriving DecidableEq

/-- The `for _ in range(N)` loop of `rootwalk` (lines 137-151 of
`utils.py`).  The `try` block stores `bisect`'s value at slot `i` on a sign
change (`IndexError` when `i ≥ len(r)` is not caught), `except
AsymtoteException` skips the sub-interval, and after the `try` the loop
returns `r` as soon as `i == n`; after the loop, warn and return `r`. -/
def rootwalkLoop (f : ℚ → ℚ) (dx eps : ℚ) (kmax n : ℕ) :
    ℕ → ℚ → ℕ → List (Option ℚ) → RootwalkOutcome
  | 0, _, _, r => .incomplete r
  | fuel + 1, x, i, r =>
    if f x * f (x + dx) < 0 then
      match bisect f x (x + dx) eps kmax with
      | .ok m =>
        if i < r.length then
          if i + 1 = n then .done (r.set i (some m))
          else rootwalkLoop f dx eps kmax n fuel (x + dx) (i + 1) (r.set i (some m))
        else .fault .indexError
      | .okWarn m =>
        if i < r.length then
          if i + 1 = n then .done (r.set i (some m))
          else rootwalkLoop f dx eps kmax n fuel (x + dx) (i + 1) (r.set i (some m))
        else .fault .indexError
      | .asymtote _ _ _ _ _ =>
        if i = n then .done r else rootwalkLoop f dx eps kmax n fuel (x + dx) i r
      | .unbound => .fault .unboundLocal
    else
      if i = n then .done r else rootwalkLoop f dx eps kmax n fuel (x + dx) i r

/-- Embedding of `rootwalk(f, a, b, N, n, eps, max_iter)` of `utils.py`: `dx = (b-a)/N`
raises `ZeroDivisionError` when `N = 0`; otherwise scan from `a` with the
`n`-slot NaN-initialised list. -/
def rootwalk (f : ℚ → ℚ) (a b : ℚ) (N n : ℕ) (eps : ℚ) (max_iter : ℕ) : RootwalkOutcome :=
  if N = 0 then .fault .zeroDivisionError
  else rootwalkLoop f ((b - a) / (N : ℚ)) eps max_iter n N a 0 (List.replicate n none)

/-- Value delivered by a `bisect` call that returns normally (with or
without a `ConvergenceWarning`); `none` when it raises. -/
def bisectVal (f : ℚ → ℚ) (a b eps : ℚ) (max_iter : ℕ) : Option ℚ :=
  match bisect f a b eps max_iter with
  | .ok m => some m
  | .okWarn m => some m
  | _ => none

/-- The roots that one full scan of `rootwalkLoop` stores, in scan order:
on each sign-change sub-interval the value of `bisect`, skipped when
`bisect` raises. -/
def scRoots (f : ℚ → ℚ) (dx eps : ℚ) (kmax : ℕ) : ℕ → ℚ → List ℚ
  | 0, _ => []
  | fuel + 1, x =>
    if f x * f (x + dx) < 0 then
      match bisectVal f x (x + dx) eps kmax with
      | some m => m :: scRoots f dx eps kmax fuel (x + dx)
      | none => scRoots f dx eps kmax fuel (x + dx)
    else scRoots f dx eps kmax fuel (x + dx)

/-- The Python variable `m` of `bisect` after `k` further iterations that
all take the narrowing branch, starting from interval `(a, b)` with `m?`
holding the previous midpoint: for `k = 0` it is the old `m?`, otherwise
the midpoint of the second-to-last interval. -/
def lastMid (f : ℚ → ℚ) (a b : ℚ) (m? : Option ℚ) : ℕ → Option ℚ
  | 0 => m?
  | k + 1 => some (mid ((bstep f)^[k] (a, b)))

lemma bisectLoop_some_ne_unbound (f : ℚ → ℚ) (eps : ℚ) :
    ∀ (k : ℕ) (a b m0 : ℚ), bisectLoop f eps k a b (some m0) ≠ .unbound := by
  intro k
  induction k with
  | zero =>
    intro a b m0
    simp only [bisectLoop, bisectPost]
    split <;> simp
  | succ k ih =>
    intro a b m0
    simp only [bisectLoop]
    split
    · simp
    · split
      · exact ih _ _ _
      · exact ih _ _ _

lemma bisect_ne_unbound (f : ℚ → ℚ) (a b eps : ℚ) (k : ℕ) (hk : 1 ≤ k) :
    bisect f a b eps k ≠ .unbound := by
  obtain ⟨k', rfl⟩ : ∃ k', k = k' + 1 := ⟨k - 1, (Nat.succ_pred_eq_of_pos hk).symm⟩
  rw [bisect]
  simp only [bisectLoop]
  split
  · simp
  · split
    · exact bisectLoop_some_ne_unbound f eps k' _ _ _
    · exact bisectLoop_some_ne_unbound f eps k' _ _ _

lemma lastMid_step (f : ℚ → ℚ) (a b : ℚ) (m? : Option ℚ) (k : ℕ) :
    lastMid f (bstep f (a, b)).1 (bstep f (a, b)).2 (some (mid (a, b))) k =
      lastMid f a b m? (k + 1) := by
  cases k with
  | zero => simp [lastMid]
  | succ j =>
    simp only [lastMid]
    rw [Function.iterate_succ_apply, Prod.mk.eta]

/-- If no iteration of `bisect`'s loop hits the early return, the loop
runs through all its narrowing steps and hands the final interval and the
last midpoint to the post-loop code. -/
lemma bisectLoop_exhaust (f : ℚ → ℚ) (eps : ℚ) :
    ∀ (k : ℕ) (a b : ℚ) (m? : Option ℚ),
      (∀ j, j < k → eps ≤ |f (mid ((bstep f)^[j] (a, b)))|) →
      bisectLoop f eps k a b m? =
        bisectPost f eps ((bstep f)^[k] (a, b)).1 ((bstep f)^[k] (a, b)).2
          (lastMid f a b m? k) := by
  intro k
  induction k with
  | zero =>
    intro a b m? h
    simp [bisectLoop, lastMid]
  | succ k ih =>
    intro a b m? h
    have h0 : eps ≤ |f ((a + b) / 2)| := by
      simpa [mid] using h 0 (Nat.succ_pos k)
    have hne0 : ¬ |f ((a + b) / 2)| < eps := not_lt.mpr h0
    have hshift : ∀ j, j < k →
        eps ≤ |f (mid ((bstep f)^[j] ((bstep f (a, b)).1, (bstep f (a, b)).2)))| := by
      intro j hj
      rw [Prod.mk.eta, ← Function.iterate_succ_apply]
      exact h (j + 1) (Nat.succ_lt_succ hj)
    have hrec := ih (bstep f (a, b)).1 (bstep f (a, b)).2 (some (mid (a, b))) hshift
    rw [Prod.mk.eta, ← Function.iterate_succ_apply, lastMid_step f a b m? k] at hrec
    rw [← hrec]
    by_cases hbr : f a * f ((a + b) / 2) < 0
    · have hb : bstep f (a, b) = (a, (a + b) / 2) := by simp [bstep, mid, hbr]
      simp [bisectLoop, hne0, hbr, hb, mid]
    · have hb : bstep f (a, b) = ((a + b) / 2, b) := by simp [bstep, mid, hbr]
      simp [bisectLoop, hne0, hbr, hb, mid]

/-- If iteration `j` (counting from 0) is the first whose midpoint meets
the margin, `bisect`'s loop returns that midpoint there. -/
lemma bisectLoop_early (f : ℚ → ℚ) (eps : ℚ) :
    ∀ (j k : ℕ) (a b : ℚ) (m? : Option ℚ), j < k →
      (∀ i, i < j → eps ≤ |f (mid ((bstep f)^[i] (a, b)))|) →
      |f (mid ((bstep f)^[j] (a, b)))| < eps →
      bisectLoop f eps k a b m? = .ok (mid ((bstep f)^[j] (a, b))) := by
  intro j
  induction j with
  | zero =>
    intro k a b m? hjk hfirst hhit
    obtain ⟨k', rfl⟩ : ∃ k', k = k' + 1 := ⟨k - 1, (Nat.succ_pred_eq_of_pos hjk).symm⟩
    rw [Function.iterate_zero_apply] at hhit
    have hhit' : |f ((a + b) / 2)| < eps := by simpa [mid] using hhit
    simp [bisectLoop, hhit', mid]
  | succ j ih =>
    intro k a b m? hjk hfirst hhit
    obtain ⟨k', rfl⟩ : ∃ k', k = k' + 1 := ⟨k - 1, (Nat.succ_pred_eq_of_pos (Nat.lt_of_lt_of_le (Nat.zero_lt_succ j) (Nat.le_of_lt hjk))).symm⟩
    have h0 : eps ≤ |f ((a + b) / 2)| := by
      simpa [mid] using hfirst 0 (Nat.succ_pos j)
    have hne0 : ¬ |f ((a + b) / 2)| < eps := not_lt.mpr h0
    have hfirst' : ∀ i, i < j →
        eps ≤ |f (mid ((bstep f)^[i] ((bstep f (a, b)).1, (bstep f (a, b)).2)))| := by
      intro i hi
      rw [Prod.mk.eta, ← Function.iterate_succ_apply]
      exact hfirst (i + 1) (Nat.succ_lt_succ hi)
    have hhit' : |f (mid ((bstep f)^[j] ((bstep f (a, b)).1, (bstep f (a, b)).2)))| < eps := by
      rw [Prod.mk.eta, ← Function.iterate_succ_apply]
      exact hhit
    have hrec := ih k' (bstep f (a, b)).1 (bstep f (a, b)).2 (some (mid (a, b)))
      (Nat.lt_of_succ_lt_succ hjk) hfirst' hhit'
    rw [Prod.mk.eta, ← Function.iterate_succ_apply] at hrec
    rw [← hrec]
    by_cases hbr : f a * f ((a + b) / 2) < 0
    · have hb : bstep f (a, b) = (a, (a + b) / 2) := by simp [bstep, mid, hbr]
      simp [bisectLoop, hne0, hbr, hb, mid]
    · have hb : bstep f (a, b) = ((a + b) / 2, b) := by simp [bstep, mid, hbr]
      simp [bisectLoop, hne0, hbr, hb, mid]

/-- C1: with `max_iter ≥ 1`, each iteration of `bisect` computes the
midpoint `m = (a+b)/2` and returns it immediately if `|f(m)| < eps` (early
termination on the first satisfying midpoint); otherwise the interval is
narrowed to `[a, m]` when `f(a)*f(m) < 0` and to `[m, b]` in every other
case, including `f(a)*f(m) = 0` exactly.  The first conjunct states that
`bisect` returns the midpoint of the `j`-th narrowed interval as soon as
`j` is the first iteration meeting the margin; the second characterises
the narrowing step `bstep`. -/
theorem bisect_iteration_rule (f : ℚ → ℚ) (a b eps : ℚ) (k j : ℕ) :
    (j < k →
      (∀ i, i < j → eps ≤ |f (mid ((bstep f)^[i] (a, b)))|) →
      |f (mid ((bstep f)^[j] (a, b)))| < eps →
      bisect f a b eps k = .ok (mid ((bstep f)^[j] (a, b)))) ∧
    (∀ p : ℚ × ℚ,
      (f p.1 * f (mid p) < 0 → bstep f p = (p.1, mid p)) ∧
      (¬ f p.1 * f (mid p) < 0 → bstep f p = (mid p, p.2))) := by
  constructor
  · intro hjk hfirst hhit
    exact bisectLoop_early f eps j k a b none hjk hfirst hhit
  · intro p
    constructor <;> intro h <;> simp [bstep, h]

/-- Witness for C1 at `f = id`, `[a,b] = [-1,1]`, `eps = 1/2`,
`max_iter = 3`: the very first midpoint `0` satisfies `|f(0)| < 1/2`. -/
theorem bisect_iteration_rule_witness :
    bisect (fun x : ℚ => x) (-1) 1 (1/2) 3 = .ok 0 := by
  have h := (bisect_iteration_rule (fun x : ℚ => x) (-1) 1 (1/2) 3 0).1
    (by norm_num) (fun i hi => absurd hi (Nat.not_lt_zero i)) (by norm_num [mid])
  simpa [mid] using h

/-- C2: when `bisect` exhausts all `max_iter ≥ 1` iterations without an
early return, it raises the asymptote condition exactly when
`-f(a)*f(b) > 1/eps` holds for the final narrowed bounds, and otherwise
returns the last computed midpoint with a convergence warning. -/
theorem bisect_exhaustion_asymtote_test (f : ℚ → ℚ) (a b eps : ℚ) (k : ℕ) (hk : 1 ≤ k)
    (hne : ∀ j, j < k → eps ≤ |f (mid ((bstep f)^[j] (a, b)))|) :
    bisect f a b eps k =
      if -f ((bstep f)^[k] (a, b)).1 * f ((bstep f)^[k] (a, b)).2 > 1/eps then
        .asymtote (mid ((bstep f)^[k-1] (a, b))) (f ((bstep f)^[k] (a, b)).1)
          (f ((bstep f)^[k] (a, b)).2) ((bstep f)^[k] (a, b)).1 ((bstep f)^[k] (a, b)).2
      else .okWarn (mid ((bstep f)^[k-1] (a, b))) := by
  obtain ⟨k', rfl⟩ : ∃ k', k = k' + 1 := ⟨k - 1, (Nat.succ_pred_eq_of_pos hk).symm⟩
  rw [bisect, bisectLoop_exhaust f eps (k' + 1) a b none hne]
  simp only [lastMid, Nat.add_sub_cancel, bisectPost]

/-- Witness for C2 at `f(x) = x + 10` on `[0,1]`, `eps = 1/2`,
`max_iter = 1`: no midpoint meets the margin, the asymptote test is
negative, and the last midpoint `1/2` is returned with a warning. -/
theorem bisect_exhaustion_asymtote_test_witness :
    bisect (fun x : ℚ => x + 10) 0 1 (1/2) 1 = .okWarn (1/2) := by
  have h := bisect_exhaustion_asymtote_test (fun x : ℚ => x + 10) 0 1 (1/2) 1 (le_refl 1) ?_
  · rw [h]
    norm_num [bstep, mid]
  · intro j hj
    interval_cases j
    norm_num [mid, abs_of_nonneg]

/-- C8 counterexample: with `max_iter = 0`, `bisect` does not fall through
to the convergence-shortfall path: it raises an unbound-local fault (both
post-loop branches read the never-assigned loop variable `m`); and with
`N = 0`, `rootwalk` does not reach the incomplete-solution path: computing
`dx = (b-a)/N` raises a division-by-zero fault. -/
theorem zero_iteration_counterexample :
    bisect (fun x : ℚ => x) 0 1 1 0 = .unbound ∧
    rootwalk (fun x : ℚ => x) 0 1 0 1 1 1 = .fault .zeroDivisionError := by
  constructor
  · norm_num [bisect, bisectLoop, bisectPost]
  · norm_num [rootwalk]

/-- C8 amended: for every call, `bisect` with `max_iter = 0` evaluates only
the asymptote test and then raises the unbound-local fault on either
branch, and `rootwalk` with `N = 0` raises the division-by-zero fault from
`dx = (b-a)/N` before doing anything else; neither reaches its
shortfall/incomplete-solution path. -/
theorem zero_iteration_behavior (f : ℚ → ℚ) (a b eps : ℚ) (n kmax : ℕ) :
    bisect f a b eps 0 = .unbound ∧
    rootwalk f a b 0 n eps kmax = .fault .zeroDivisionError := by
  constructor
  · show bisectPost f eps a b none = .unbound
    unfold bisectPost
    split <;> rfl
  · rfl

/-- Any midpoint of an interval whose endpoints have opposite signs under
an `L`-Lipschitz `f` has residual at most `L*(b-a)/2`. -/
lemma mid_residual_bound (f : ℚ → ℚ) (L a b : ℚ) (hab : a < b)
    (hsign : f a * f b < 0)
    (hLip : ∀ x y, a ≤ x → x ≤ y → y ≤ b → |f y - f x| ≤ L * (y - x)) :
    |f ((a + b) / 2)| ≤ L * (b - a) / 2 := by
  set m : ℚ := (a + b) / 2 with hm
  have hm1 : a ≤ m := by rw [hm]; linarith
  have hm2 : m ≤ b := by rw [hm]; linarith
  have h1 : |f m - f a| ≤ L * ((b - a) / 2) := by
    have := hLip a m (le_refl a) hm1 hm2
    have hma : m - a = (b - a) / 2 := by rw [hm]; ring
    rwa [hma] at this
  have h2 : |f b - f m| ≤ L * ((b - a) / 2) := by
    have := hLip m b hm1 hm2 (le_refl b)
    have hbm : b - m = (b - a) / 2 := by rw [hm]; ring
    rwa [hbm] at this
  have h1' := abs_le.mp h1
  have h2' := abs_le.mp h2
  rcases mul_neg_iff.mp hsign with ⟨hfa, hfb⟩ | ⟨hfa, hfb⟩
  · -- f a > 0, f b < 0
    rcases le_or_lt (f m) 0 with hfm | hfm
    · rw [abs_of_nonpos hfm]
      have := h1'.1
      linarith
    · rw [abs_of_pos hfm]
      have := h2'.2
      linarith
  · -- f a < 0, f b > 0
    rcases le_or_lt (f m) 0 with hfm | hfm
    · rw [abs_of_nonpos hfm]
      have := h2'.1
      linarith
    · rw [abs_of_pos hfm]
      have := h1'.2
      linarith

/-- When the bracketing invariant `s*u < 0` holds and the midpoint value
`t` is nonzero, rejecting the left half (`¬ s*t < 0`) places the sign
change in the right half. -/
lemma sign_propagates (s t u : ℚ) (h1 : s * u < 0) (h2 : ¬ s * t < 0) (h3 : t ≠ 0) :
    t * u < 0 := by
  push_neg at h2
  rcases mul_neg_iff.mp h1 with ⟨hs, hu⟩ | ⟨hs, hu⟩
  · have ht : 0 < t := by
      rcases lt_trichotomy t 0 with h | h | h
      · exact absurd (mul_neg_of_pos_of_neg hs h) (not_lt.mpr h2)
      · exact absurd h h3
      · exact h
    exact mul_neg_of_pos_of_neg ht hu
  · have ht : t < 0 := by
      rcases lt_trichotomy t 0 with h | h | h
      · exact h
      · exact absurd h h3
      · exact absurd (mul_neg_of_neg_of_pos hs h) (not_lt.mpr h2)
    exact mul_neg_of_neg_of_pos ht hu

/-- Bisection converges for a Lipschitz bracketed function once enough
iterations are allowed: the loop must hit the early return. -/
lemma bisectLoop_lipschitz_converges (f : ℚ → ℚ) (L eps : ℚ) :
    ∀ (k : ℕ), 1 ≤ k → ∀ (a b : ℚ) (m? : Option ℚ), a < b → f a * f b < 0 →
      (∀ x y, a ≤ x → x ≤ y → y ≤ b → |f y - f x| ≤ L * (y - x)) →
      L * (b - a) < eps * 2 ^ k →
      ∃ m, bisectLoop f eps k a b m? = .ok m ∧ |f m| < eps ∧ a ≤ m ∧ m ≤ b := by
  intro k
  induction k with
  | zero => intro h; exact absurd h (by norm_num)
  | succ k ih =>
    intro _ a b m? hab hsign hLip hiter
    have hL : 0 ≤ L := by
      have h1 := hLip a b (le_refl a) (le_of_lt hab) (le_refl b)
      have h2 : (0:ℚ) ≤ |f b - f a| := abs_nonneg _
      nlinarith
    have heps : 0 < eps := by
      have h2 : (0:ℚ) < 2 ^ (k + 1) := by positivity
      nlinarith
    set m : ℚ := (a + b) / 2 with hm
    have hm1 : a < m := by rw [hm]; linarith
    have hm2 : m < b := by rw [hm]; linarith
    by_cases hearly : |f m| < eps
    · exact ⟨m, by simp [bisectLoop, ← hm, hearly], hearly, le_of_lt hm1, le_of_lt hm2⟩
    · -- the midpoint misses the margin, so at least one more level is needed
      have hfm : f m ≠ 0 := by
        intro h
        rw [h] at hearly
        simp at hearly
        exact absurd heps (not_lt.mpr hearly)
      cases k with
      | zero =>
        -- impossible: the midpoint residual is below eps already
        have hb := mid_residual_bound f L a b hab hsign hLip
        rw [← hm] at hb
        have : |f m| < eps := by
          have : L * (b - a) < eps * 2 := by simpa using hiter
          linarith
        exact absurd this hearly
      | succ k' =>
        have hks : 1 ≤ k' + 1 := Nat.succ_le_succ (Nat.zero_le k')
        have hhalf : L * ((b - a) / 2) < eps * 2 ^ (k' + 1) := by
          have h2 : (eps * 2 ^ (k' + 1)) * 2 = eps * 2 ^ (k' + 1 + 1) := by ring
          nlinarith
        by_cases hbr : f a * f m < 0
        · have step : bisectLoop f eps (k' + 1 + 1) a b m? =
              bisectLoop f eps (k' + 1) a m (some m) := by
            simp [bisectLoop, ← hm, hearly, hbr]
          have hLip' : ∀ x y, a ≤ x → x ≤ y → y ≤ m → |f y - f x| ≤ L * (y - x) :=
            fun x y hx hxy hy => hLip x y hx hxy (le_trans hy (le_of_lt hm2))
          have hsz : L * (m - a) < eps * 2 ^ (k' + 1) := by
            have : m - a = (b - a) / 2 := by rw [hm]; ring
            rwa [this]
          obtain ⟨m', hres, h1, h2, h3⟩ := ih hks a m (some m) hm1 hbr hLip' hsz
          exact ⟨m', by rw [step]; exact hres, h1, h2, le_trans h3 (le_of_lt hm2)⟩
        · have hsign' : f m * f b < 0 := sign_propagates (f a) (f m) (f b) hsign hbr hfm
          have step : bisectLoop f eps (k' + 1 + 1) a b m? =
              bisectLoop f eps (k' + 1) m b (some m) := by
            simp [bisectLoop, ← hm, hearly, hbr]
          have hLip' : ∀ x y, m ≤ x → x ≤ y → y ≤ b → |f y - f x| ≤ L * (y - x) :=
            fun x y hx hxy hy => hLip x y (le_trans (le_of_lt hm1) hx) hxy hy
          have hsz : L * (b - m) < eps * 2 ^ (k' + 1) := by
            have : b - m = (b - a) / 2 := by rw [hm]; ring
            rwa [this]
          obtain ⟨m', hres, h1, h2, h3⟩ := ih hks m b (some m) hm2 hsign' hLip' hsz
          exact ⟨m', by rw [step]; exact hres, h1, le_trans (le_of_lt hm1) h2, h3⟩

/-- C7 counterexample: `f = id` is monotonic with a sign change on
`[-1, 3]`, yet `bisect` with `eps = 1/1000000` and `max_iter = 1` returns
the midpoint `1`, whose residual `|f(1)| = 1` is not below `eps`. -/
theorem bisect_monotone_claim_counterexample :
    ((fun x : ℚ => x) (-1) * (fun x : ℚ => x) 3 < 0) ∧
    (∀ x y : ℚ, -1 ≤ x → x ≤ y → y ≤ 3 → (fun x : ℚ => x) x ≤ (fun x : ℚ => x) y) ∧
    bisect (fun x : ℚ => x) (-1) 3 (1/1000000) 1 = .okWarn 1 ∧
    ¬ |(fun x : ℚ => x) 1| < 1/1000000 := by
  refine ⟨by norm_num, fun x y _ h _ => h, ?_, by norm_num⟩
  norm_num [bisect, bisectLoop, bisectPost]

/-- C7 amended: for every monotonic `f` with a sign change
`f(a)*f(b) < 0` on `[a, b]` that is moreover `L`-Lipschitz on `[a, b]`,
and with `max_iter ≥ 1` iterations satisfying
`L*(b-a) < eps * 2^max_iter`, `bisect` returns a value `m` with
`|f(m)| < eps` and `a ≤ m ≤ b` (by the early return, within `max_iter`
iterations).  Without the Lipschitz bound and the iteration-count bound
the guarantee `|f(m)| < eps` fails (see the counterexample). -/
theorem bisect_lipschitz_converges (f : ℚ → ℚ) (L a b eps : ℚ) (k : ℕ)
    (hk : 1 ≤ k) (hab : a < b)
    (hmono : (∀ x y, a ≤ x → x ≤ y → y ≤ b → f x ≤ f y) ∨
      (∀ x y, a ≤ x → x ≤ y → y ≤ b → f y ≤ f x))
    (hsign : f a * f b < 0)
    (hLip : ∀ x y, a ≤ x → x ≤ y → y ≤ b → |f y - f x| ≤ L * (y - x))
    (hiter : L * (b - a) < eps * 2 ^ k) :
    ∃ m, bisect f a b eps k = .ok m ∧ |f m| < eps ∧ a ≤ m ∧ m ≤ b :=
  bisectLoop_lipschitz_converges f L eps k hk a b none hab hsign hLip hiter

/-- Witness for C7 (amended) at `f = id`, `L = 1`, `[a,b] = [-1,1]`,
`eps = 1/2`, `max_iter = 3`: `1*2 < (1/2)*8`. -/
theorem bisect_lipschitz_converges_witness :
    ∃ m, bisect (fun x : ℚ => x) (-1) 1 (1/2) 3 = .ok m ∧
      |(fun x : ℚ => x) m| < 1/2 ∧ -1 ≤ m ∧ m ≤ 1 :=
  bisect_lipschitz_converges (fun x : ℚ => x) 1 (-1) 1 (1/2) 3 (by norm_num) (by norm_num)
    (Or.inl fun x y _ h _ => h)
    (by norm_num)
    (fun x y _ hxy _ => by rw [abs_of_nonneg (by linarith), one_mul])
    (by norm_num)

/-- If iterate `j ≥ 1` is the first updated iterate meeting the margin and
no earlier derivative vanishes, Newton's loop returns it. -/
lemma newtonLoop_early (f df : ℚ → ℚ) (eps : ℚ) :
    ∀ (j k : ℕ) (x0 : ℚ), 1 ≤ j → j ≤ k →
      (∀ i, i < j → df ((nstep f df)^[i] x0) ≠ 0) →
      |f ((nstep f df)^[j] x0)| < eps →
      (∀ i, i < j → 1 ≤ i → ¬ |f ((nstep f df)^[i] x0)| < eps) →
      newtonLoop f df eps k x0 = .ok ((nstep f df)^[j] x0) := by
  intro j
  induction j with
  | zero => intro k x0 h; exact absurd h (by norm_num)
  | succ j ih =>
    intro k x0 _ hjk hdf hhit hfirst
    obtain ⟨k', rfl⟩ : ∃ k', k = k' + 1 :=
      ⟨k - 1, (Nat.succ_pred_eq_of_pos (Nat.lt_of_lt_of_le (Nat.succ_pos j) hjk)).symm⟩
    have hd0 : df x0 ≠ 0 := by
      have := hdf 0 (Nat.succ_pos j)
      simpa using this
    cases j with
    | zero =>
      have hhit' : |f (x0 - f x0 / df x0)| < eps := by
        simpa [nstep] using hhit
      simp [newtonLoop, hd0, hhit', nstep]
    | succ j' =>
      have hne1 : ¬ |f (x0 - f x0 / df x0)| < eps := by
        have := hfirst 1 (Nat.succ_lt_succ (Nat.succ_pos j')) (le_refl 1)
        simpa [nstep] using this
      have step : newtonLoop f df eps (k' + 1) x0 =
          newtonLoop f df eps k' (nstep f df x0) := by
        simp [newtonLoop, hd0, hne1, nstep]
      rw [step]
      have hrec := ih k' (nstep f df x0) (Nat.succ_le_succ (Nat.zero_le j'))
        (Nat.lt_succ_iff.mp hjk)
        (fun i hi => by
          rw [← Function.iterate_succ_apply]
          exact hdf (i + 1) (Nat.succ_lt_succ hi))
        (by rw [← Function.iterate_succ_apply]; exact hhit)
        (fun i hi h1 => by
          rw [← Function.iterate_succ_apply]
          exact hfirst (i + 1) (Nat.succ_lt_succ hi) (Nat.le_succ_of_le h1))
      rw [← Function.iterate_succ_apply] at hrec
      exact hrec

/-- If no updated iterate ever meets the margin and no derivative
vanishes along the way, Newton's loop exhausts its iterations and returns
the final iterate with a convergence warning. -/
lemma newtonLoop_exhaust (f df : ℚ → ℚ) (eps : ℚ) :
    ∀ (k : ℕ) (x0 : ℚ),
      (∀ i, i < k → df ((nstep f df)^[i] x0) ≠ 0) →
      (∀ i, i ≤ k → 1 ≤ i → ¬ |f ((nstep f df)^[i] x0)| < eps) →
      newtonLoop f df eps k x0 = .okWarn ((nstep f df)^[k] x0) := by
  intro k
  induction k with
  | zero => intro x0 _ _; simp [newtonLoop]
  | succ k ih =>
    intro x0 hdf hmiss
    have hd0 : df x0 ≠ 0 := by simpa using hdf 0 (Nat.succ_pos k)
    have hne1 : ¬ |f (x0 - f x0 / df x0)| < eps := by
      have := hmiss 1 (Nat.succ_le_succ (Nat.zero_le k)) (le_refl 1)
      simpa [nstep] using this
    have step : newtonLoop f df eps (k + 1) x0 =
        newtonLoop f df eps k (nstep f df x0) := by
      simp [newtonLoop, hd0, hne1, nstep]
    rw [step]
    have hrec := ih (nstep f df x0)
      (fun i hi => by
        rw [← Function.iterate_succ_apply]
        exact hdf (i + 1) (Nat.succ_lt_succ hi))
      (fun i hi h1 => by
        rw [← Function.iterate_succ_apply]
        exact hmiss (i + 1) (Nat.succ_le_succ hi) (Nat.le_succ_of_le h1))
    rw [← Function.iterate_succ_apply] at hrec
    exact hrec

/-- If the derivative first vanishes at iterate `j` and the loop reaches
that iterate, the division fault surfaces. -/
lemma newtonLoop_zerodiv (f df : ℚ → ℚ) (eps : ℚ) :
    ∀ (j k : ℕ) (x0 : ℚ), j < k →
      (∀ i, i < j → df ((nstep f df)^[i] x0) ≠ 0) →
      df ((nstep f df)^[j] x0) = 0 →
      (∀ i, i ≤ j → 1 ≤ i → ¬ |f ((nstep f df)^[i] x0)| < eps) →
      newtonLoop f df eps k x0 = .zeroDivisionError := by
  intro j
  induction j with
  | zero =>
    intro k x0 hjk _ hz _
    obtain ⟨k', rfl⟩ : ∃ k', k = k' + 1 := ⟨k - 1, (Nat.succ_pred_eq_of_pos hjk).symm⟩
    have hz' : df x0 = 0 := by simpa using hz
    simp [newtonLoop, hz']
  | succ j ih =>
    intro k x0 hjk hpre hz hmiss
    obtain ⟨k', rfl⟩ : ∃ k', k = k' + 1 :=
      ⟨k - 1, (Nat.succ_pred_eq_of_pos (Nat.lt_of_lt_of_le (Nat.succ_pos j) (Nat.le_of_lt hjk))).symm⟩
    have hd0 : df x0 ≠ 0 := by simpa using hpre 0 (Nat.succ_pos j)
    have hne1 : ¬ |f (x0 - f x0 / df x0)| < eps := by
      have := hmiss 1 (Nat.succ_le_succ (Nat.zero_le j)) (le_refl 1)
      simpa [nstep] using this
    have step : newtonLoop f df eps (k' + 1) x0 =
        newtonLoop f df eps k' (nstep f df x0) := by
      simp [newtonLoop, hd0, hne1, nstep]
    rw [step]
    exact ih k' (nstep f df x0) (Nat.lt_of_succ_lt_succ hjk)
      (fun i hi => by
        rw [← Function.iterate_succ_apply]
        exact hpre (i + 1) (Nat.succ_lt_succ hi))
      (by rw [← Function.iterate_succ_apply]; exact hz)
      (fun i hi h1 => by
        rw [← Function.iterate_succ_apply]
        exact hmiss (i + 1) (Nat.succ_le_succ hi) (Nat.le_succ_of_le h1))

/-- C5: `newton_raphson` iterates at most `max_iter` times, each iteration
first replacing `x0` by `x0 - f(x0)/df(x0)` and only then returning `x0`
if `|f(x0)| < eps` (so only updated iterates, `j ≥ 1`, can be returned
early, the first satisfying one); if no updated iterate meets the margin
within `max_iter` updates, the final iterate is returned with a
convergence warning — with no divergence or asymptote detection, whatever
the magnitudes of the iterates. -/
theorem newton_update_then_check (f df : ℚ → ℚ) (x0 eps : ℚ) (k : ℕ) :
    (∀ j, 1 ≤ j → j ≤ k →
      (∀ i, i < j → df ((nstep f df)^[i] x0) ≠ 0) →
      |f ((nstep f df)^[j] x0)| < eps →
      (∀ i, i < j → 1 ≤ i → ¬ |f ((nstep f df)^[i] x0)| < eps) →
      newton_raphson x0 f df eps k = .ok ((nstep f df)^[j] x0)) ∧
    ((∀ i, i < k → df ((nstep f df)^[i] x0) ≠ 0) →
      (∀ i, i ≤ k → 1 ≤ i → ¬ |f ((nstep f df)^[i] x0)| < eps) →
      newton_raphson x0 f df eps k = .okWarn ((nstep f df)^[k] x0)) :=
  ⟨fun j h1 hjk hdf hhit hfirst => newtonLoop_early f df eps j k x0 h1 hjk hdf hhit hfirst,
   fun hdf hmiss => newtonLoop_exhaust f df eps k x0 hdf hmiss⟩

/-- Witness for C5 at the spec's own test: `x0 = 2`, `f(x) = x²-2`,
`df(x) = 2x`, `eps = 1/2`, `max_iter = 3`: the first update produces
`3/2` with `|f(3/2)| = 1/4 < 1/2`. -/
theorem newton_update_then_check_witness :
    newton_raphson 2 (fun x : ℚ => x * x - 2) (fun x : ℚ => 2 * x) (1/2) 3 = .ok (3/2) := by
  have h := (newton_update_then_check (fun x : ℚ => x * x - 2) (fun x : ℚ => 2 * x) 2 (1/2) 3).1
    1 (le_refl 1) (by norm_num)
    (by
      intro i hi
      interval_cases i
      norm_num [nstep])
    (by norm_num [nstep, Function.iterate_one, abs_of_nonneg])
    (fun i hi h1 => absurd (Nat.lt_of_lt_of_le hi h1) (by norm_num))
  rw [h]
  norm_num [nstep, Function.iterate_one]

/-- C6: when `df` evaluates to zero at the current iterate (here: the
first vanishing iterate `j`, reached because no earlier update met the
margin), the division fault propagates unmodified to `newton_raphson`'s
caller: nothing is caught and no validation of `f` or `df` is performed. -/
theorem newton_zero_derivative_fault (f df : ℚ → ℚ) (x0 eps : ℚ) (k j : ℕ)
    (hjk : j < k)
    (hpre : ∀ i, i < j → df ((nstep f df)^[i] x0) ≠ 0)
    (hz : df ((nstep f df)^[j] x0) = 0)
    (hmiss : ∀ i, i ≤ j → 1 ≤ i → ¬ |f ((nstep f df)^[i] x0)| < eps) :
    newton_raphson x0 f df eps k = .zeroDivisionError :=
  newtonLoop_zerodiv f df eps j k x0 hjk hpre hz hmiss

/-- Witness for C6: `df` identically zero faults on the very first
update. -/
theorem newton_zero_derivative_fault_witness :
    newton_raphson 0 (fun _ : ℚ => 1) (fun _ : ℚ => 0) 1 1 = .zeroDivisionError :=
  newton_zero_derivative_fault (fun _ : ℚ => 1) (fun _ : ℚ => 0) 0 1 1 0 (by norm_num)
    (fun i hi => absurd hi (Nat.not_lt_zero i)) rfl
    (fun i hi h1 => absurd (Nat.le_trans h1 hi) (by norm_num))

lemma set_append_length (l t : List (Option ℚ)) (v : Option ℚ) :
    (l ++ t).set l.length v = l ++ t.set 0 v := by
  induction l with
  | nil => simp
  | cons a l ih => simp [List.set, ih]

lemma chain'_le_snoc (c : List ℚ) (m : ℚ) (hc : c.Chain' (· ≤ ·))
    (h : ∀ y ∈ c, y ≤ m) : (c ++ [m]).Chain' (· ≤ ·) := by
  induction c with
  | nil => simp
  | cons a c ih =>
    cases c with
    | nil =>
      simp only [List.singleton_append]
      exact List.chain'_pair.mpr (h a (List.mem_cons_self a []))
    | cons b c =>
      simp only [List.cons_append] at ih ⊢
      rw [List.chain'_cons] at hc ⊢
      rcases hc with ⟨hab, hc⟩
      exact ⟨hab, ih hc fun y hy => h y (List.mem_cons_of_mem a hy)⟩

lemma length_filterMap_if (l : List ℕ) (p : ℕ → Prop) [DecidablePred p]
    (g : ℕ → Option ℚ) (hg : ∀ j ∈ l, p j → (g j).isSome = true) :
    (l.filterMap fun j => if p j then g j else none).length
      = (l.filter fun j => decide (p j)).length := by
  induction l with
  | nil => rfl
  | cons a l ih =>
    have ih' := ih fun j hj hpj => hg j (List.mem_cons_of_mem a hj) hpj
    by_cases hp : p a
    · obtain ⟨v, hv⟩ := Option.isSome_iff_exists.mp (hg a (List.mem_cons_self a l) hp)
      simp [List.filterMap_cons, List.filter_cons, hp, hv, ih']
    · simp [List.filterMap_cons, List.filter_cons, hp, ih']

/-- Every value `bisect`'s loop returns (early or with a warning) lies in
the enclosing interval: narrowing never leaves it and every candidate is a
midpoint of a sub-interval. -/
lemma bisectLoop_value_mem (f : ℚ → ℚ) (eps lo hi : ℚ) :
    ∀ (k : ℕ) (a b : ℚ) (m? : Option ℚ), lo ≤ a → a ≤ b → b ≤ hi →
      (∀ m0, m? = some m0 → lo ≤ m0 ∧ m0 ≤ hi) →
      ∀ m, bisectLoop f eps k a b m? = .ok m ∨ bisectLoop f eps k a b m? = .okWarn m →
      lo ≤ m ∧ m ≤ hi := by
  intro k
  induction k with
  | zero =>
    intro a b m? hlo hab hhi hm? m hres
    rcases m? with _ | m0 <;> simp only [bisectLoop, bisectPost] at hres
    · split at hres <;> simp at hres
    · split at hres
      · rcases hres with h | h <;> simp at h
      · rcases hres with h | h
        · simp at h
        · obtain rfl : m0 = m := by simpa using h
          exact hm? _ rfl
  | succ k ih =>
    intro a b m? hlo hab hhi hm? m hres
    simp only [bisectLoop] at hres
    have hmid1 : lo ≤ (a + b) / 2 := by linarith
    have hmid2 : (a + b) / 2 ≤ hi := by linarith
    by_cases hearly : |f ((a + b) / 2)| < eps
    · rw [if_pos hearly] at hres
      rcases hres with h | h
      · obtain rfl : (a + b) / 2 = m := by simpa using h
        exact ⟨hmid1, hmid2⟩
      · simp at h
    · rw [if_neg hearly] at hres
      by_cases hbr : f a * f ((a + b) / 2) < 0
      · rw [if_pos hbr] at hres
        exact ih a ((a + b) / 2) (some ((a + b) / 2)) hlo (by linarith) hmid2
          (fun m0 hm0 => Option.some.inj hm0 ▸ ⟨hmid1, hmid2⟩) m hres
      · rw [if_neg hbr] at hres
        exact ih ((a + b) / 2) b (some ((a + b) / 2)) hmid1 (by linarith) hhi
          (fun m0 hm0 => Option.some.inj hm0 ▸ ⟨hmid1, hmid2⟩) m hres

lemma bisectVal_mem (f : ℚ → ℚ) (a b eps : ℚ) (k : ℕ) (hab : a ≤ b) (m : ℚ)
    (h : bisectVal f a b eps k = some m) : a ≤ m ∧ m ≤ b := by
  unfold bisectVal at h
  cases hres : bisect f a b eps k with
  | ok m' =>
    rw [hres] at h
    obtain rfl : m' = m := by simpa using h
    exact bisectLoop_value_mem f eps a b k a b none (le_refl a) hab (le_refl b)
      (fun m0 hm0 => by simp at hm0) _ (Or.inl hres)
  | okWarn m' =>
    rw [hres] at h
    obtain rfl : m' = m := by simpa using h
    exact bisectLoop_value_mem f eps a b k a b none (le_refl a) hab (le_refl b)
      (fun m0 hm0 => by simp at hm0) _ (Or.inr hres)
  | asymtote m' fa fb a' b' => rw [hres] at h; simp at h
  | unbound => rw [hres] at h; simp at h

lemma rootwalkLoop_store (f : ℚ → ℚ) (dx eps : ℚ) (kmax n fuel : ℕ) (x : ℚ) (i : ℕ)
    (r : List (Option ℚ)) (m : ℚ)
    (hsc : f x * f (x + dx) < 0)
    (hv : bisectVal f x (x + dx) eps kmax = some m)
    (hlen : i < r.length) :
    rootwalkLoop f dx eps kmax n (fuel + 1) x i r =
      if i + 1 = n then .done (r.set i (some m))
      else rootwalkLoop f dx eps kmax n fuel (x + dx) (i + 1) (r.set i (some m)) := by
  unfold bisectVal at hv
  cases hb : bisect f x (x + dx) eps kmax with
  | ok m' =>
    rw [hb] at hv
    obtain rfl : m' = m := by simpa using hv
    simp [rootwalkLoop, hsc, hb, hlen]
  | okWarn m' =>
    rw [hb] at hv
    obtain rfl : m' = m := by simpa using hv
    simp [rootwalkLoop, hsc, hb, hlen]
  | asymtote m' fa fb a' b' => rw [hb] at hv; simp at hv
  | unbound => rw [hb] at hv; simp at hv

lemma rootwalkLoop_nosign (f : ℚ → ℚ) (dx eps : ℚ) (kmax n fuel : ℕ) (x : ℚ) (i : ℕ)
    (r : List (Option ℚ)) (hsc : ¬ f x * f (x + dx) < 0) :
    rootwalkLoop f dx eps kmax n (fuel + 1) x i r =
      if i = n then .done r else rootwalkLoop f dx eps kmax n fuel (x + dx) i r := by
  simp [rootwalkLoop, hsc]

lemma rootwalkLoop_asym (f : ℚ → ℚ) (dx eps : ℚ) (kmax n fuel : ℕ) (x : ℚ) (i : ℕ)
    (r : List (Option ℚ)) (m fa fb a' b' : ℚ)
    (hsc : f x * f (x + dx) < 0)
    (hb : bisect f x (x + dx) eps kmax = .asymtote m fa fb a' b') :
    rootwalkLoop f dx eps kmax n (fuel + 1) x i r =
      if i = n then .done r else rootwalkLoop f dx eps kmax n fuel (x + dx) i r := by
  simp [rootwalkLoop, hsc, hb]

lemma rootwalkLoop_unboundfault (f : ℚ → ℚ) (dx eps : ℚ) (kmax n fuel : ℕ) (x : ℚ) (i : ℕ)
    (r : List (Option ℚ))
    (hsc : f x * f (x + dx) < 0)
    (hb : bisect f x (x + dx) eps kmax = .unbound) :
    rootwalkLoop f dx eps kmax n (fuel + 1) x i r = .fault .unboundLocal := by
  simp [rootwalkLoop, hsc, hb]

lemma scRoots_store (f : ℚ → ℚ) (dx eps : ℚ) (kmax fuel : ℕ) (x : ℚ) (m : ℚ)
    (hsc : f x * f (x + dx) < 0)
    (hv : bisectVal f x (x + dx) eps kmax = some m) :
    scRoots f dx eps kmax (fuel + 1) x = m :: scRoots f dx eps kmax fuel (x + dx) := by
  simp [scRoots, hsc, hv]

lemma scRoots_skip (f : ℚ → ℚ) (dx eps : ℚ) (kmax fuel : ℕ) (x : ℚ)
    (h : ¬ f x * f (x + dx) < 0 ∨ bisectVal f x (x + dx) eps kmax = none) :
    scRoots f dx eps kmax (fuel + 1) x = scRoots f dx eps kmax fuel (x + dx) := by
  rcases h with h | h
  · simp [scRoots, h]
  · by_cases hsc : f x * f (x + dx) < 0 <;> simp [scRoots, hsc, h]

/-- Storing the next root at the first free slot of the partially filled
list turns the first sentinel into the stored value. -/
lemma set_map_append_length (c : List ℚ) (t : List (Option ℚ)) (v : Option ℚ) :
    (c.map some ++ t).set c.length v = c.map some ++ t.set 0 v := by
  simpa using set_append_length (c.map some) t v

lemma set_collected (c : List ℚ) (n i : ℕ) (m : ℚ) (hi : i = c.length) (hin : i < n) :
    (c.map some ++ List.replicate (n - i) none).set i (some m) =
      (c ++ [m]).map some ++ List.replicate (n - (i + 1)) none := by
  subst hi
  obtain ⟨d, hd⟩ : ∃ d, n - c.length = d + 1 := ⟨n - c.length - 1, by omega⟩
  rw [set_map_append_length, hd, List.replicate_succ]
  have h2 : n - (c.length + 1) = d := by omega
  simp [List.map_append, h2, List.set]

/-- Loop invariant characterisation of `rootwalkLoop` for `max_iter ≥ 1`:
starting with the `i = |c|` roots already collected in the leading slots,
the walk stores the value of `bisect` on each remaining sign-change
sub-interval in scan order, returns early (`done`) as soon as `n` roots
are collected, and otherwise completes the scan and returns the partially
filled, sentinel-padded list (`incomplete`). -/
lemma rootwalkLoop_char (f : ℚ → ℚ) (dx eps : ℚ) (kmax n : ℕ) (hk : 1 ≤ kmax) :
    ∀ (fuel : ℕ) (x : ℚ) (i : ℕ) (c : List ℚ), i = c.length → i < n →
      rootwalkLoop f dx eps kmax n fuel x i (c.map some ++ List.replicate (n - i) none) =
        if n ≤ i + (scRoots f dx eps kmax fuel x).length then
          .done ((c ++ (scRoots f dx eps kmax fuel x).take (n - i)).map some)
        else
          .incomplete ((c ++ scRoots f dx eps kmax fuel x).map some ++
            List.replicate (n - i - (scRoots f dx eps kmax fuel x).length) none) := by
  intro fuel
  induction fuel with
  | zero =>
    intro x i c hi hin
    simp only [rootwalkLoop, scRoots, List.length_nil, Nat.add_zero, List.append_nil,
      Nat.sub_zero]
    rw [if_neg (Nat.not_le.mpr hin)]
  | succ fuel ih =>
    intro x i c hi hin
    by_cases hsc : f x * f (x + dx) < 0
    · cases hv : bisectVal f x (x + dx) eps kmax with
      | none =>
        obtain ⟨m, fa, fb, a', b', hb⟩ :
            ∃ m fa fb a' b', bisect f x (x + dx) eps kmax = .asymtote m fa fb a' b' := by
          unfold bisectVal at hv
          cases hb' : bisect f x (x + dx) eps kmax with
          | ok m => rw [hb'] at hv; simp at hv
          | okWarn m => rw [hb'] at hv; simp at hv
          | asymtote m fa fb a' b' => exact ⟨m, fa, fb, a', b', rfl⟩
          | unbound => exact absurd hb' (bisect_ne_unbound f x (x + dx) eps kmax hk)
        rw [rootwalkLoop_asym f dx eps kmax n fuel x i _ m fa fb a' b' hsc hb,
          if_neg (Nat.ne_of_lt hin), ih (x + dx) i c hi hin,
          scRoots_skip f dx eps kmax fuel x (Or.inr hv)]
      | some m =>
        have hrlen : (c.map some ++ List.replicate (n - i) none).length = n := by
          simp only [List.length_append, List.length_map, List.length_replicate, ← hi]
          omega
        rw [rootwalkLoop_store f dx eps kmax n fuel x i _ m hsc hv (by rw [hrlen]; exact hin),
          set_collected c n i m hi hin, scRoots_store f dx eps kmax fuel x m hsc hv]
        by_cases hdone : i + 1 = n
        · rw [if_pos hdone, if_pos (by simp only [List.length_cons]; omega)]
          have h0 : n - (i + 1) = 0 := by omega
          have h1 : n - i = 0 + 1 := by omega
          simp [h0, h1, List.take_succ_cons]
        · have hlt : i + 1 < n := lt_of_le_of_ne (Nat.succ_le_of_lt hin) hdone
          rw [if_neg hdone, ih (x + dx) (i + 1) (c ++ [m]) (by simp [hi]) hlt]
          by_cases hfill : n ≤ i + 1 + (scRoots f dx eps kmax fuel (x + dx)).length
          · rw [if_pos hfill, if_pos (by simp only [List.length_cons]; omega)]
            obtain ⟨d, hd⟩ : ∃ d, n - i = d + 1 := ⟨n - i - 1, by omega⟩
            have h1 : n - (i + 1) = d := by omega
            simp [hd, h1, List.take_succ_cons]
          · rw [if_neg hfill, if_neg (by simp only [List.length_cons]; omega)]
            have h1 : n - (i + 1) - (scRoots f dx eps kmax fuel (x + dx)).length =
                n - i - ((scRoots f dx eps kmax fuel (x + dx)).length + 1) := by omega
            simp [h1]
    · rw [rootwalkLoop_nosign f dx eps kmax n fuel x i _ hsc, if_neg (Nat.ne_of_lt hin),
        ih (x + dx) i c hi hin, scRoots_skip f dx eps kmax fuel x (Or.inl hsc)]

/-- Characterisation of `rootwalk` for `N ≥ 1`, `n ≥ 1`, `max_iter ≥ 1` in
terms of the scan-ordered root list `scRoots`. -/
lemma rootwalk_char (f : ℚ → ℚ) (a b eps : ℚ) (N n kmax : ℕ)
    (hN : 1 ≤ N) (hn : 1 ≤ n) (hk : 1 ≤ kmax) :
    rootwalk f a b N n eps kmax =
      if n ≤ (scRoots f ((b - a) / (N : ℚ)) eps kmax N a).length then
        .done (((scRoots f ((b - a) / (N : ℚ)) eps kmax N a).take n).map some)
      else
        .incomplete ((scRoots f ((b - a) / (N : ℚ)) eps kmax N a).map some ++
          List.replicate (n - (scRoots f ((b - a) / (N : ℚ)) eps kmax N a).length) none) := by
  have hN0 : N ≠ 0 := Nat.one_le_iff_ne_zero.mp hN
  rw [rootwalk, if_neg hN0]
  have h := rootwalkLoop_char f ((b - a) / (N : ℚ)) eps kmax n hk N a 0 [] rfl
    (Nat.lt_of_lt_of_le Nat.zero_lt_one hn)
  simpa using h

/-- The scan visits the `N` sub-intervals `[x + j*dx, x + (j+1)*dx]`,
`j = 0, …, N-1`, left to right. -/
lemma scRoots_eq_filterMap (f : ℚ → ℚ) (dx eps : ℚ) (kmax : ℕ) :
    ∀ (N : ℕ) (x : ℚ),
      scRoots f dx eps kmax N x =
        (List.range N).filterMap fun j : ℕ =>
          if f (x + (j : ℚ) * dx) * f (x + (j : ℚ) * dx + dx) < 0 then
            bisectVal f (x + (j : ℚ) * dx) (x + (j : ℚ) * dx + dx) eps kmax
          else none := by
  intro N
  induction N with
  | zero => intro x; simp [scRoots]
  | succ N ih =>
    intro x
    rw [List.range_succ_eq_map, List.filterMap_cons, List.filterMap_map]
    have hcomp : ((fun j : ℕ =>
        if f (x + (j : ℚ) * dx) * f (x + (j : ℚ) * dx + dx) < 0 then
          bisectVal f (x + (j : ℚ) * dx) (x + (j : ℚ) * dx + dx) eps kmax
        else none) ∘ Nat.succ) = (fun j : ℕ =>
        if f ((x + dx) + (j : ℚ) * dx) * f ((x + dx) + (j : ℚ) * dx + dx) < 0 then
          bisectVal f ((x + dx) + (j : ℚ) * dx) ((x + dx) + (j : ℚ) * dx + dx) eps kmax
        else none) := by
      funext j
      simp only [Function.comp_apply, Nat.succ_eq_add_one, Nat.cast_add, Nat.cast_one]
      rw [show x + ((j : ℚ) + 1) * dx = (x + dx) + (j : ℚ) * dx by ring]
    rw [hcomp, ← ih (x + dx)]
    by_cases hsc : f x * f (x + dx) < 0
    · cases hv : bisectVal f x (x + dx) eps kmax with
      | some m =>
        rw [scRoots_store f dx eps kmax N x m hsc hv]
        simp [hsc, hv]
      | none =>
        rw [scRoots_skip f dx eps kmax N x (Or.inr hv)]
        simp [hsc, hv]
    · rw [scRoots_skip f dx eps kmax N x (Or.inl hsc)]
      simp [hsc]

/-- C3: `rootwalk` walks the `N` equal sub-intervals of width `(b-a)/N`
left to right from `a`, stores a `bisect` result at the next free slot of
the `n`-slot sentinel-initialised list exactly when `f(x)*f(x+dx) < 0`
(the hypothesis `H` restricts to calls in which no sub-interval's `bisect`
raises, the case claim C4 is about), returns as soon as `n` roots are
collected without scanning the rest, and otherwise completes all `N`
steps and returns the partially filled, sentinel-padded list with the
incomplete-solution notification. -/
theorem rootwalk_scan (f : ℚ → ℚ) (a b eps dx : ℚ) (N n kmax : ℕ)
    (hdx : dx = (b - a) / (N : ℚ)) (hN : 1 ≤ N) (hn : 1 ≤ n) (hk : 1 ≤ kmax)
    (H : ∀ j : ℕ, j < N → f (a + (j : ℚ) * dx) * f (a + (j : ℚ) * dx + dx) < 0 →
      (bisectVal f (a + (j : ℚ) * dx) (a + (j : ℚ) * dx + dx) eps kmax).isSome = true) :
    (rootwalk f a b N n eps kmax =
      if n ≤ (scRoots f dx eps kmax N a).length then
        .done (((scRoots f dx eps kmax N a).take n).map some)
      else
        .incomplete ((scRoots f dx eps kmax N a).map some ++
          List.replicate (n - (scRoots f dx eps kmax N a).length) none)) ∧
    scRoots f dx eps kmax N a =
      (List.range N).filterMap (fun j : ℕ =>
        if f (a + (j : ℚ) * dx) * f (a + (j : ℚ) * dx + dx) < 0 then
          bisectVal f (a + (j : ℚ) * dx) (a + (j : ℚ) * dx + dx) eps kmax
        else none) ∧
    (scRoots f dx eps kmax N a).length =
      ((List.range N).filter fun j : ℕ =>
        decide (f (a + (j : ℚ) * dx) * f (a + (j : ℚ) * dx + dx) < 0)).length := by
  subst hdx
  refine ⟨rootwalk_char f a b eps N n kmax hN hn hk,
    scRoots_eq_filterMap f _ eps kmax N a, ?_⟩
  rw [scRoots_eq_filterMap f _ eps kmax N a]
  exact length_filterMap_if (List.range N) _ _ fun j hj hp => H j (List.mem_range.mp hj) hp

set_option maxHeartbeats 1600000 in
/-- Witness for C3 at `f(x) = x - 1/3` on `[0,1]` with `N = 2`, `n = 1`,
`eps = 1/2`, `max_iter = 5`: the first sub-interval has a sign change,
`bisect` returns `1/4` there, and the scan stops early with one root. -/
theorem rootwalk_scan_witness :
    rootwalk (fun x : ℚ => x - 1/3) 0 1 2 1 (1/2) 5 = .done [some (1/4)] := by
  have h := (rootwalk_scan (fun x : ℚ => x - 1/3) 0 1 (1/2) (1/2) 2 1 5 (by norm_num)
    (by norm_num) (by norm_num) (by norm_num) ?_).1
  · rw [h]
    norm_num [scRoots, bisectVal, bisect, bisectLoop, bisectPost, abs_of_nonneg, abs_of_nonpos]
  · intro j hj hsign
    interval_cases j
    · norm_num [bisectVal, bisect, bisectLoop, bisectPost, abs_of_nonneg, abs_of_nonpos]
    · norm_num at hsign

/-- No branch of the scan loop re-raises a caught `AsymtoteException`. -/
lemma rootwalkLoop_ne_asymfault (f : ℚ → ℚ) (dx eps : ℚ) (kmax n : ℕ) :
    ∀ (fuel : ℕ) (x : ℚ) (i : ℕ) (r : List (Option ℚ)) (m fa fb a' b' : ℚ),
      rootwalkLoop f dx eps kmax n fuel x i r ≠ .fault (.asymtoteExc m fa fb a' b') := by
  intro fuel
  induction fuel with
  | zero =>
    intro x i r m fa fb a' b'
    simp [rootwalkLoop]
  | succ fuel ih =>
    intro x i r m fa fb a' b'
    simp only [rootwalkLoop]
    split
    · split
      · split
        · split
          · simp
          · apply ih
        · simp
      · split
        · split
          · simp
          · apply ih
        · simp
      · split
        · simp
        · apply ih
      · simp
    · split
      · simp
      · apply ih

/-- C4: when the internal `bisect` call on a sign-change sub-interval
raises the asymptote condition, `rootwalk`'s loop swallows it and
continues with the next sub-interval, leaving the slot count and list
unchanged (first conjunct); the asymptote condition is the only one
caught — an unbound-local fault of the same `bisect` call propagates
(second conjunct) — and `rootwalk` never re-raises a caught asymptote
condition to its own caller (third conjunct). -/
theorem rootwalk_asymtote_handling :
    (∀ (f : ℚ → ℚ) (dx eps : ℚ) (kmax n fuel : ℕ) (x : ℚ) (i : ℕ) (r : List (Option ℚ))
        (m fa fb a' b' : ℚ),
      f x * f (x + dx) < 0 →
      bisect f x (x + dx) eps kmax = .asymtote m fa fb a' b' →
      rootwalkLoop f dx eps kmax n (fuel + 1) x i r =
        if i = n then .done r else rootwalkLoop f dx eps kmax n fuel (x + dx) i r) ∧
    (∀ (f : ℚ → ℚ) (dx eps : ℚ) (kmax n fuel : ℕ) (x : ℚ) (i : ℕ) (r : List (Option ℚ)),
      f x * f (x + dx) < 0 →
      bisect f x (x + dx) eps kmax = .unbound →
      rootwalkLoop f dx eps kmax n (fuel + 1) x i r = .fault .unboundLocal) ∧
    (∀ (f : ℚ → ℚ) (a b eps : ℚ) (N n kmax : ℕ) (m fa fb a' b' : ℚ),
      rootwalk f a b N n eps kmax ≠ .fault (.asymtoteExc m fa fb a' b')) := by
  refine ⟨?_, ?_, ?_⟩
  · intro f dx eps kmax n fuel x i r m fa fb a' b' hsc hb
    exact rootwalkLoop_asym f dx eps kmax n fuel x i r m fa fb a' b' hsc hb
  · intro f dx eps kmax n fuel x i r hsc hb
    exact rootwalkLoop_unboundfault f dx eps kmax n fuel x i r hsc hb
  · intro f a b eps N n kmax m fa fb a' b'
    rw [rootwalk]
    split
    · simp
    · exact rootwalkLoop_ne_asymfault f _ eps kmax n N a 0 _ m fa fb a' b'

/-- Jump function used by the C4 witness: its `bisect` run on `[0, 1]`
exhausts the single iteration and trips the asymptote test. -/
def stepFun : ℚ → ℚ := fun x => if x = 0 then 100 else -100

/-- Witness for C4: on `[0,1]` with `eps = 1`, `max_iter = 1`, `bisect`
raises the asymptote condition and the scan step just moves on. -/
theorem rootwalk_asymtote_handling_witness :
    stepFun 0 * stepFun (0 + 1) < 0 ∧
    bisect stepFun 0 (0 + 1) 1 1 = .asymtote (1/2) 100 (-100) 0 (1/2) ∧
    rootwalkLoop stepFun 1 1 1 1 (0 + 1) 0 0 [none] =
      rootwalkLoop stepFun 1 1 1 1 0 (0 + 1) 0 [none] := by
  have hsc : stepFun 0 * stepFun (0 + 1) < 0 := by norm_num [stepFun]
  have hb : bisect stepFun 0 (0 + 1) 1 1 = .asymtote (1/2) 100 (-100) 0 (1/2) := by
    norm_num [bisect, bisectLoop, bisectPost, stepFun, abs_of_nonneg, abs_of_nonpos]
  have h := rootwalk_asymtote_handling.1 stepFun 1 1 1 1 0 0 0 [none] (1/2) 100 (-100) 0 (1/2)
    hsc hb
  refine ⟨hsc, hb, ?_⟩
  simpa using h

/-- With the invariant `i < n` and `|r| = n`, the scan loop never stores
out of bounds and every list it returns still has length `n`. -/
lemma rootwalkLoop_safety (f : ℚ → ℚ) (dx eps : ℚ) (kmax n : ℕ) :
    ∀ (fuel : ℕ) (x : ℚ) (i : ℕ) (r : List (Option ℚ)), i < n → r.length = n →
      rootwalkLoop f dx eps kmax n fuel x i r ≠ .fault .indexError ∧
      (∀ r', rootwalkLoop f dx eps kmax n fuel x i r = .done r' ∨
             rootwalkLoop f dx eps kmax n fuel x i r = .incomplete r' → r'.length = n) := by
  intro fuel
  induction fuel with
  | zero =>
    intro x i r hin hlen
    constructor
    · simp [rootwalkLoop]
    · intro r' hr'
      rcases hr' with h | h
      · simp [rootwalkLoop] at h
      · simp only [rootwalkLoop] at h
        obtain rfl : r = r' := by simpa using h
        exact hlen
  | succ fuel ih =>
    intro x i r hin hlen
    by_cases hsc : f x * f (x + dx) < 0
    · cases hv : bisectVal f x (x + dx) eps kmax with
      | some m =>
        rw [rootwalkLoop_store f dx eps kmax n fuel x i r m hsc hv (by rw [hlen]; exact hin)]
        by_cases hdone : i + 1 = n
        · rw [if_pos hdone]
          constructor
          · simp
          · intro r' hr'
            rcases hr' with h | h
            · obtain rfl : r.set i (some m) = r' := by simpa using h
              simp [hlen]
            · simp at h
        · rw [if_neg hdone]
          exact ih (x + dx) (i + 1) (r.set i (some m))
            (lt_of_le_of_ne (Nat.succ_le_of_lt hin) hdone) (by simp [hlen])
      | none =>
        unfold bisectVal at hv
        cases hb : bisect f x (x + dx) eps kmax with
        | ok m => rw [hb] at hv; simp at hv
        | okWarn m => rw [hb] at hv; simp at hv
        | asymtote m fa fb a' b' =>
          rw [rootwalkLoop_asym f dx eps kmax n fuel x i r m fa fb a' b' hsc hb,
            if_neg (Nat.ne_of_lt hin)]
          exact ih (x + dx) i r hin hlen
        | unbound =>
          rw [rootwalkLoop_unboundfault f dx eps kmax n fuel x i r hsc hb]
          constructor
          · simp
          · intro r' hr'
            rcases hr' with h | h <;> simp at h
    · rw [rootwalkLoop_nosign f dx eps kmax n fuel x i r hsc, if_neg (Nat.ne_of_lt hin)]
      exact ih (x + dx) i r hin hlen

/-- C9: with `n ≥ 1` every store of `rootwalk` into the result list is in
bounds — the call can never raise the out-of-bounds store fault — and the
scan never collects more than `n` roots: any normally returned list still
has exactly the `n` slots it started with. -/
theorem rootwalk_store_safety (f : ℚ → ℚ) (a b eps : ℚ) (N n kmax : ℕ) (hn : 1 ≤ n) :
    rootwalk f a b N n eps kmax ≠ .fault .indexError ∧
    ∀ r, rootwalk f a b N n eps kmax = .done r ∨
         rootwalk f a b N n eps kmax = .incomplete r → r.length = n := by
  rw [rootwalk]
  split
  · constructor
    · simp
    · intro r hr
      rcases hr with h | h <;> simp at h
  · exact rootwalkLoop_safety f _ eps kmax n N a 0 _
      (Nat.lt_of_lt_of_le Nat.zero_lt_one hn) (List.length_replicate n none)

/-- Witness for C9 at `n = 1` on a sign-change-free scan. -/
theorem rootwalk_store_safety_witness :
    (1 : ℕ) ≤ 1 ∧ rootwalk (fun _ : ℚ => 1) 0 1 1 1 1 1 ≠ .fault .indexError :=
  ⟨le_refl 1, (rootwalk_store_safety (fun _ : ℚ => 1) 0 1 1 1 1 1 (le_refl 1)).1⟩

/-- Any list the scan loop returns normally consists of a sorted prefix
of roots from `[a, b]` (in scan order) followed by a contiguous block of
sentinels. -/
lemma rootwalkLoop_shape (f : ℚ → ℚ) (dx eps : ℚ) (kmax n : ℕ) (a b : ℚ) (hdx : 0 ≤ dx) :
    ∀ (fuel : ℕ) (x : ℚ) (i : ℕ) (c : List ℚ) (p : ℕ),
      a ≤ x → x + fuel * dx ≤ b → (∀ m ∈ c, a ≤ m ∧ m ≤ x) → c.Chain' (· ≤ ·) →
      i = c.length →
      ∀ r', (rootwalkLoop f dx eps kmax n fuel x i
               (c.map some ++ List.replicate p none) = .done r' ∨
             rootwalkLoop f dx eps kmax n fuel x i
               (c.map some ++ List.replicate p none) = .incomplete r') →
      ∃ c' : List ℚ, r' = c'.map some ++ List.replicate (r'.length - c'.length) none ∧
        c'.Chain' (· ≤ ·) ∧ ∀ m ∈ c', a ≤ m ∧ m ≤ b := by
  intro fuel
  induction fuel with
  | zero =>
    intro x i c p hax hxb hc hchain hi r' hr'
    have hxb' : x ≤ b := by
      have : ((0 : ℕ) : ℚ) * dx = 0 := by norm_num
      rw [this] at hxb
      linarith
    rcases hr' with h | h
    · simp [rootwalkLoop] at h
    · simp only [rootwalkLoop] at h
      obtain rfl : c.map some ++ List.replicate p none = r' := by simpa using h
      refine ⟨c, ?_, hchain, fun m hm => ⟨(hc m hm).1, le_trans (hc m hm).2 hxb'⟩⟩
      have hq : (c.map some ++ List.replicate p none).length - c.length = p := by simp
      rw [hq]
  | succ fuel ih =>
    intro x i c p hax hxb hc hchain hi r' hr'
    have hcast : x + ((fuel + 1 : ℕ) : ℚ) * dx = x + dx + (fuel : ℚ) * dx := by
      push_cast
      ring
    rw [hcast] at hxb
    have hfdx : (0 : ℚ) ≤ (fuel : ℚ) * dx := by positivity
    have hxdx : x + dx ≤ b := by linarith
    by_cases hsc : f x * f (x + dx) < 0
    · cases hv : bisectVal f x (x + dx) eps kmax with
      | some m =>
        have hm := bisectVal_mem f x (x + dx) eps kmax (by linarith) m hv
        by_cases hip : i < (c.map some ++ List.replicate p none).length
        · rw [rootwalkLoop_store f dx eps kmax n fuel x i _ m hsc hv hip] at hr'
          obtain ⟨q, rfl⟩ : ∃ q, p = q + 1 := by
            refine ⟨p - 1, ?_⟩
            simp only [List.length_append, List.length_map, List.length_replicate, hi] at hip
            omega
          have hset : (c.map some ++ List.replicate (q + 1) none).set i (some m) =
              (c ++ [m]).map some ++ List.replicate q none := by
            subst hi
            rw [set_map_append_length, List.replicate_succ]
            simp [List.map_append, List.set]
          rw [hset] at hr'
          have hcm : ∀ y ∈ c ++ [m], a ≤ y ∧ y ≤ x + dx := by
            intro y hy
            rcases List.mem_append.mp hy with hy | hy
            · exact ⟨(hc y hy).1, le_trans (hc y hy).2 (by linarith)⟩
            · obtain rfl := List.mem_singleton.mp hy
              exact ⟨by linarith [hm.1], hm.2⟩
          have hchain' : (c ++ [m]).Chain' (· ≤ ·) :=
            chain'_le_snoc c m hchain fun y hy => le_trans (hc y hy).2 hm.1
          by_cases hdone : i + 1 = n
          · rw [if_pos hdone] at hr'
            rcases hr' with h | h
            · obtain rfl : (c ++ [m]).map some ++ List.replicate q none = r' := by
                simpa using h
              refine ⟨c ++ [m], ?_, hchain',
                fun y hy => ⟨(hcm y hy).1, le_trans (hcm y hy).2 hxdx⟩⟩
              have hq : ((c ++ [m]).map some ++ List.replicate q none).length -
                  (c ++ [m]).length = q := by
                simp
                omega
              rw [hq]
            · simp at h
          · rw [if_neg hdone] at hr'
            exact ih (x + dx) (i + 1) (c ++ [m]) q (by linarith) hxb hcm hchain'
              (by simp [hi]) r' hr'
        · have hflt : rootwalkLoop f dx eps kmax n (fuel + 1) x i
              (c.map some ++ List.replicate p none) = .fault .indexError := by
            have hip' : ¬ i < c.length + p := by simpa using hip
            unfold bisectVal at hv
            cases hb : bisect f x (x + dx) eps kmax with
            | ok m' =>
              rw [hb] at hv
              simp [rootwalkLoop, hsc, hb, hip']
            | okWarn m' =>
              rw [hb] at hv
              simp [rootwalkLoop, hsc, hb, hip']
            | asymtote m' fa fb a' b' => rw [hb] at hv; simp at hv
            | unbound => rw [hb] at hv; simp at hv
          rw [hflt] at hr'
          rcases hr' with h | h <;> simp at h
      | none =>
        unfold bisectVal at hv
        cases hb : bisect f x (x + dx) eps kmax with
        | ok m' => rw [hb] at hv; simp at hv
        | okWarn m' => rw [hb] at hv; simp at hv
        | asymtote m' fa fb a' b' =>
          rw [rootwalkLoop_asym f dx eps kmax n fuel x i _ m' fa fb a' b' hsc hb] at hr'
          by_cases hin : i = n
          · rw [if_pos hin] at hr'
            rcases hr' with h | h
            · obtain rfl : c.map some ++ List.replicate p none = r' := by simpa using h
              refine ⟨c, ?_, hchain,
                fun y hy => ⟨(hc y hy).1, le_trans (hc y hy).2 (by linarith)⟩⟩
              have hq : (c.map some ++ List.replicate p none).length - c.length = p := by simp
              rw [hq]
            · simp at h
          · rw [if_neg hin] at hr'
            exact ih (x + dx) i c p (by linarith) hxb
              (fun y hy => ⟨(hc y hy).1, le_trans (hc y hy).2 (by linarith)⟩) hchain hi r' hr'
        | unbound =>
          rw [rootwalkLoop_unboundfault f dx eps kmax n fuel x i _ hsc hb] at hr'
          rcases hr' with h | h <;> simp at h
    · rw [rootwalkLoop_nosign f dx eps kmax n fuel x i _ hsc] at hr'
      by_cases hin : i = n
      · rw [if_pos hin] at hr'
        rcases hr' with h | h
        · obtain rfl : c.map some ++ List.replicate p none = r' := by simpa using h
          refine ⟨c, ?_, hchain,
            fun y hy => ⟨(hc y hy).1, le_trans (hc y hy).2 (by linarith)⟩⟩
          have hq : (c.map some ++ List.replicate p none).length - c.length = p := by simp
          rw [hq]
        · simp at h
      · rw [if_neg hin] at hr'
        exact ih (x + dx) i c p (by linarith) hxb
          (fun y hy => ⟨(hc y hy).1, le_trans (hc y hy).2 (by linarith)⟩) hchain hi r' hr'

/-- C10: when `a ≤ b` and `rootwalk` returns normally (early or after the
full scan), the returned list is a `some`-prefix followed by a contiguous
trailing block of sentinels, the prefix is non-decreasing, and each of
its entries lies in `[a, b]`. -/
theorem rootwalk_result_shape (f : ℚ → ℚ) (a b eps : ℚ) (N n kmax : ℕ) (hab : a ≤ b)
    (r : List (Option ℚ))
    (hr : rootwalk f a b N n eps kmax = .done r ∨
          rootwalk f a b N n eps kmax = .incomplete r) :
    ∃ c : List ℚ, r = c.map some ++ List.replicate (r.length - c.length) none ∧
      c.Chain' (· ≤ ·) ∧ ∀ m ∈ c, a ≤ m ∧ m ≤ b := by
  rw [rootwalk] at hr
  by_cases hN : N = 0
  · rw [if_pos hN] at hr
    rcases hr with h | h <;> simp at h
  · rw [if_neg hN] at hr
    have hNQ : ((N : ℚ)) ≠ 0 := Nat.cast_ne_zero.mpr hN
    have hdx : (0 : ℚ) ≤ (b - a) / (N : ℚ) := by
      apply div_nonneg (by linarith)
      positivity
    refine rootwalkLoop_shape f ((b - a) / (N : ℚ)) eps kmax n a b hdx N a 0 [] n
      (le_refl a) ?_ (by simp) List.chain'_nil rfl r ?_
    · rw [mul_comm, div_mul_cancel₀ _ hNQ]
      linarith
    · simpa using hr

/-- Witness for C10 at `f(x) = x - 1/3` on `[0,1]`: the returned list
`[some (1/4)]` has the sorted-prefix, in-bounds, sentinel-padded shape. -/
theorem rootwalk_result_shape_witness :
    ∃ c : List ℚ, [some (1/4 : ℚ)] = c.map some ++
        List.replicate ([some (1/4 : ℚ)].length - c.length) none ∧
      c.Chain' (· ≤ ·) ∧ ∀ m ∈ c, 0 ≤ m ∧ m ≤ 1 :=
  rootwalk_result_shape (fun x : ℚ => x - 1/3) 0 1 (1/2) 2 1 5 (by norm_num) [some (1/4)]
    (Or.inl (by norm_num [rootwalk, rootwalkLoop, bisect, bisectLoop, bisectPost,
      abs_of_nonneg, abs_of_nonpos]))

example : bisect (fun x : ℚ => x) (-1) 1 (1/2) 3 = .ok 0 := by
  norm_num [bisect, bisectLoop, bisectPost]
example : bisect (fun x : ℚ => x) (-1) 3 (1/1000000) 1 = .okWarn 1 := by
  norm_num [bisect, bisectLoop, bisectPost]
example : bisect (fun x : ℚ => x) 0 1 1 0 = .unbound := by
  norm_num [bisect, bisectLoop, bisectPost]
example : rootwalk (fun x : ℚ => x) 0 1 0 1 1 1 = .fault .zeroDivisionError := by
  norm_num [rootwalk]
example : newton_raphson 2 (fun x : ℚ => x*x - 2) (fun x : ℚ => 2*x) (1/2) 3 = .ok (3/2) := by
  norm_num [newton_raphson, newtonLoop, abs_of_nonneg, abs_of_nonpos]
example : rootwalk (fun x : ℚ => x - 1/3) 0 1 2 1 (1/2) 5 = .done [some (1/4)] := by
  norm_num [rootwalk, rootwalkLoop, bisect, bisectLoop, bisectPost, abs_of_nonneg,
    abs_of_nonpos]

end Utils
